import Mathlib

/-!
Verification development for the historical place-name extraction pipeline
(`src/extraction/placename_extractor.py`).

Strings are modelled as `List Char` (Python `str` is a sequence of code
points).  Python's regex classes are modelled as follows:
* `\d` (at line head, `re.sub(r"^\d+\s*", ...)`) — `Char.isDigit`;
* `\s` — `Char.isWhitespace`;
* `[一-龥]` — code points U+4E00 .. U+9FA5 (`isCJK` below).
Fallible operations (`str.find` returning `-1`) are modelled with
`Option`/`Int` as noted at each definition.
-/

abbrev Str := List Char

/-- The class-level constant `DYNASTIES` of `PlaceNameExtractor`. -/
def DYNASTIES : List Str :=
  [['漢'], ['魏'], ['晉'], ['隋'], ['唐'], ['宋'], ['元'], ['明'], ['清'],
   ['秦'], ['齊'], ['梁'], ['周'], ['後', '漢'], ['元', '魏'], ['北', '齊']]

/-- The class-level constant `ADMIN_LEVELS`. -/
def ADMIN_LEVELS : List Str := [['郡'], ['州'], ['府'], ['道'], ['路']]

/-- The class-level constant `PREFIX_VERBS`. -/
def PREFIX_VERBS : List Str :=
  [['置'], ['改'], ['分'], ['析'], ['移'], ['隸'], ['屬'], ['并'], ['於'],
   ['在'], ['本'], ['舊'], ['今'], ['尋'], ['此']]

/-- The class-level constant `STOP_START_WORDS`. -/
def STOP_START_WORDS : List Str :=
  [['在'], ['及'], ['与'], ['之'], ['其'], ['此'], ['旧'], ['从'], ['至'],
   ['界'], ['有'], ['谓']]

/-- The class-level constant `PLACE_SUFFIXES` (order-significant). -/
def PLACE_SUFFIXES : List Str :=
  [['縣'], ['州'], ['郡'], ['府'], ['道'], ['山'], ['水'], ['河'], ['川'],
   ['原'], ['谷'], ['城'], ['關'], ['津'], ['坡'], ['陵'], ['宮'], ['溪'],
   ['岩'], ['潭']]

/-- The literal directional-token list of `extract_valid_placename`
(`["南", "北", "西", "东", "治", "界"]`). -/
def DIR_WORDS : List Str := [['南'], ['北'], ['西'], ['东'], ['治'], ['界']]

/-- Membership in the regex class `[一-龥]` (CJK unified ideographs). -/
def isCJK (c : Char) : Bool := 0x4E00 ≤ c.toNat && c.toNat ≤ 0x9FA5

/-- Membership in the 4-character strip set of
`lstrip(" ；，。")` / `lstrip("，。； ")` (the same set of characters). -/
def isSepChar (c : Char) : Bool := c = ' ' || c = '；' || c = '，' || c = '。'

/-- `line.lstrip(" ；，。")`. -/
def lstripSeps (l : Str) : Str := l.dropWhile isSepChar

/-- `line.lstrip()` — left half of `str.strip()`. -/
def lstripWs (l : Str) : Str := l.dropWhile Char.isWhitespace

/-- `line.rstrip()` — right half of `str.strip()`. -/
def rstripWs (l : Str) : Str := (l.reverse.dropWhile Char.isWhitespace).reverse

/-- `line.strip()`. -/
def stripWsBoth (l : Str) : Str := rstripWs (lstripWs l)

/-- `re.sub(r"^\d+\s*", "", line).strip()` — step 1 of `clean_line_start`:
remove a leading run of digits and the whitespace after it (the regex fires
only when the line starts with a digit), then strip both ends. -/
def stripLineNumber (l : Str) : Str :=
  stripWsBoth
    (match l with
     | c :: _ => if c.isDigit then (l.dropWhile Char.isDigit).dropWhile Char.isWhitespace else l
     | [] => l)

/-- One Python `for tok in toks:` loop of the form
`if line.startswith(tok): line = line[len(tok):].lstrip(" ；，。")`.
The loop keeps mutating `line`, so it is a left fold over the token list
(used for both `DYNASTIES` and `PREFIX_VERBS`). -/
def stripPrefixTokens (toks : List Str) (l : Str) : Str :=
  toks.foldl (fun cur tok => if tok.isPrefixOf cur then lstripSeps (cur.drop tok.length) else cur) l

/-- One step of the `ADMIN_LEVELS` loop:
`match = re.match(rf"^[一-龥]{1,2}{admin}", line)` and, when it matches,
`line = line[len(match.group(0)):].lstrip(" ；，。")`.  The quantifier
`{1,2}` is greedy: two ideographs followed by the admin token are tried
first, then one ideograph. -/
def stripAdminAt (admin : Str) (l : Str) : Str :=
  match l with
  | a :: b :: rest =>
    if isCJK a && isCJK b && admin.isPrefixOf rest then
      lstripSeps (rest.drop admin.length)
    else if isCJK a && admin.isPrefixOf (b :: rest) then
      lstripSeps ((b :: rest).drop admin.length)
    else l
  | _ => l

/-- The `for admin in ADMIN_LEVELS:` loop (a left fold, as the line mutates). -/
def stripAdminTokens (l : Str) : Str :=
  ADMIN_LEVELS.foldl (fun cur adm => stripAdminAt adm cur) l

/-- One iteration of the `while` body of `clean_line_start`: the dynasty
loop, then the admin-level loop, then the verb loop. -/
def cleanRound (l : Str) : Str :=
  stripPrefixTokens PREFIX_VERBS (stripAdminTokens (stripPrefixTokens DYNASTIES l))

/-- The `while iteration < max_iterations` loop: run `cleanRound` until it
makes no change or the fuel (10 in the source) is used up. -/
def cleanIter : Nat → Str → Str
  | 0, l => l
  | n + 1, l =>
    let l2 := cleanRound l
    if l2 = l then l else cleanIter n l2

/-- `PlaceNameExtractor.clean_line_start`. -/
def clean_line_start (l : Str) : Str := cleanIter 10 (stripLineNumber l)

/-- `str.find` on lists: index of the first occurrence of `sub`, `none`
when `sub` does not occur (Python returns `-1`; see `pyFind`). -/
def findSub (sub : Str) : Str → Option Nat
  | [] => if sub.isPrefixOf [] then some 0 else none
  | c :: t => if sub.isPrefixOf (c :: t) then some 0 else (findSub sub t).map (· + 1)

/-- `line.find(sub)` with Python's `-1` convention. -/
def pyFind (l sub : Str) : Int :=
  match findSub sub l with
  | some i => (i : Int)
  | none => -1

/-- Length test `2 <= len(potential_name) <= 3` of `extract_valid_placename`. -/
def lenOk (p : Str) : Bool := decide (2 ≤ p.length) && decide (p.length ≤ 3)

/-- Test `not any(potential_name.startswith(w) for w in STOP_START_WORDS)`. -/
def noStopStart (p : Str) : Bool := !(STOP_START_WORDS.any (fun w => w.isPrefixOf p))

/-- Validation 3 of `extract_valid_placename`: accept unless the text after
the candidate is non-empty, does not match `^[，。；\s]`, and starts with a
directional token. -/
def afterOk (after : Str) : Bool :=
  match after with
  | [] => true
  | c :: rest =>
    if c = '，' || c = '。' || c = '；' || c.isWhitespace then true
    else !(DIR_WORDS.any (fun d => d.isPrefixOf (c :: rest)))

/-- The `for suffix in PLACE_SUFFIXES:` loop of `extract_valid_placename`:
for the first suffix occurring in the cleaned line whose candidate
`cleaned[:idx+1]` passes all three validations, return that candidate;
a failing validation falls through to the next suffix. -/
def findSuffixCandidate : List Str → Str → Option Str
  | [], _ => none
  | suffix :: rest, cleaned =>
    match findSub suffix cleaned with
    | none => findSuffixCandidate rest cleaned
    | some idx =>
      let potential := cleaned.take (idx + 1)
      let after := cleaned.drop (idx + 1)
      if lenOk potential && noStopStart potential && afterOk after then some potential
      else findSuffixCandidate rest cleaned

/-- `PlaceNameExtractor.extract_valid_placename`. -/
def extract_valid_placename (l : Str) : Option Str :=
  let cleaned := clean_line_start l
  if cleaned = [] then none else findSuffixCandidate PLACE_SUFFIXES cleaned

/-- `PlaceNameExtractor.is_valid_placename`. -/
def is_valid_placename (name : Str) : Bool :=
  decide (2 ≤ name.length) && decide (name.length ≤ 4)
    && !(STOP_START_WORDS.any (fun w => w.isPrefixOf name))
    && (PLACE_SUFFIXES.any (fun s => s.isSuffixOf name))

/-- The `PlaceNameRecord` dataclass. -/
structure PlaceNameRecord where
  placename : Str
  text : Str
  source : Str
deriving DecidableEq

/-- Key of the aggregation dictionary: `(地名, 来源文件)`. -/
abbrev BKey := Str × Str

/-- The `aggregated_data` dictionary, modelled as an insertion-ordered
association list (Python dicts preserve insertion order). -/
abbrev Buckets := List (BKey × List Str)

/-- `key in aggregated_data`. -/
def hasKey (bs : Buckets) (k : BKey) : Bool := bs.any (fun e => e.1 = k)

/-- `if key not in aggregated_data: aggregated_data[key] = []`. -/
def ensureKey (bs : Buckets) (k : BKey) : Buckets :=
  if hasKey bs k then bs else bs ++ [(k, [])]

/-- `aggregated_data[key].append(v)` — update the (unique) entry for `k`.
When `k` is absent this is a no-op; Python would raise `KeyError` there,
but the aggregation loop only appends under keys it has created (the
new-name branch calls `ensureKey` first, and the continuation branch runs
only when `last_place` was set by an earlier new-name branch of the same
file, which created the key). -/
def appendTo : Buckets → BKey → Str → Buckets
  | [], _, _ => []
  | (k2, vs) :: rest, k, v =>
    if k2 = k then (k2, vs ++ [v]) :: rest else (k2, vs) :: appendTo rest k v

/-- Per-file scanning state: the dictionary plus `last_place`. -/
structure AggState where
  buckets : Buckets
  lastPlace : Option Str
deriving DecidableEq

/-- The body of `for line in f:` inside `extract_from_directory`:
strip the line, skip it when empty, otherwise either open/extend the
bucket of a newly detected name (storing the residual text after the name,
left-stripped of `，。； `) or append the whole line to the bucket of
`last_place`. -/
def processLine (fname : Str) (st : AggState) (rawLine : Str) : AggState :=
  let line := stripWsBoth rawLine
  if line = [] then st
  else
    match extract_valid_placename line with
    | some p =>
      let contentStart : Int := pyFind line p + (p.length : Int)
      let content := lstripSeps (line.drop contentStart.toNat)
      let key : BKey := (p, fname)
      let bs1 := ensureKey st.buckets key
      let bs2 := if content = [] then bs1 else appendTo bs1 key content
      { buckets := bs2, lastPlace := some p }
    | none =>
      match st.lastPlace with
      | some lp => { buckets := appendTo st.buckets (lp, fname) line, lastPlace := some lp }
      | none => st

/-- One file of the outer loop: `last_place = None`, then fold the lines.
A document is a pair `(fname.name, lines)`; file discovery and the
numeric-stem sort are I/O and happen before this point, so the embedding
receives the ordered document list. -/
def processFile (bs : Buckets) (doc : Str × List Str) : Buckets :=
  (doc.2.foldl (processLine doc.1) { buckets := bs, lastPlace := none }).buckets

/-- The aggregation phase of `extract_from_directory` (its first loop nest):
the final `aggregated_data` dictionary. -/
def aggregateFiles (docs : List (Str × List Str)) : Buckets :=
  docs.foldl processFile []

/-- `dict.fromkeys(texts)` used as ordered dedup: keep the first occurrence
of each line value, in insertion order. -/
def dedupKeepFirst (xs : List Str) : List Str :=
  xs.foldl (fun acc x => if x ∈ acc then acc else acc ++ [x]) []

/-- `" ".join(dict.fromkeys(texts))`. -/
def combinedText (texts : List Str) : Str := List.intercalate [' '] (dedupKeepFirst texts)

/-- The record-building loop of `extract_from_directory` (its second loop):
one record per dictionary entry whose combined text is non-empty. -/
def recordsOfBuckets (bs : Buckets) : List PlaceNameRecord :=
  bs.foldl
    (fun recs e =>
      let t := combinedText e.2
      if t = [] then recs else recs ++ [{ placename := e.1.1, text := t, source := e.1.2 }])
    []

/-- `PlaceNameExtractor.extract_from_directory`: aggregation, then record
conversion.  This is also the whole record pipeline of `main`, which calls
`extract_from_directory` and then only `save_to_csv` (CSV I/O). -/
def extract_from_directory (docs : List (Str × List Str)) : List PlaceNameRecord :=
  recordsOfBuckets (aggregateFiles docs)

/-- One attempt of the re-resolution regex
`([一-龥]{1,2}(?:縣|州|...))` at the current position: greedily try two
ideographs followed by a suffix token, then one ideograph followed by a
suffix token.  Every `PLACE_SUFFIXES` entry is a single ideograph, so the
alternation consumes exactly one character. -/
def reMatchAt (l : Str) : Option (Str × Str) :=
  match l with
  | a :: b :: c :: rest =>
    if isCJK a && isCJK b && PLACE_SUFFIXES.any (fun s => s = [c]) then some ([a, b, c], rest)
    else if isCJK a && PLACE_SUFFIXES.any (fun s => s = [b]) then some ([a, b], c :: rest)
    else none
  | [a, b] =>
    if isCJK a && PLACE_SUFFIXES.any (fun s => s = [b]) then some ([a, b], []) else none
  | _ => none

/-- `re.findall` scan with explicit fuel: collect non-overlapping matches
left to right, advancing by one character when no match starts here. -/
def findallGo : Nat → Str → List Str
  | 0, _ => []
  | _ + 1, [] => []
  | n + 1, c :: t =>
    match reMatchAt (c :: t) with
    | some (m, rest) => m :: findallGo n rest
    | none => findallGo n (c :: t).tail

/-- `pattern.findall(text)` of `validate_and_resolve` (the capture group is
the whole match). -/
def findall (l : Str) : List Str := findallGo l.length l

/-- `PlaceNameExtractor.validate_and_resolve`.  The Python mutates
`record.placename` in place and returns the same object; the embedding
returns the updated record. -/
def validate_and_resolve (r : PlaceNameRecord) : Option PlaceNameRecord :=
  let valid_candidates := (findall r.text).filter is_valid_placename
  let record :=
    match valid_candidates with
    | [] => r
    | c0 :: _ =>
      if r.placename ∉ valid_candidates ∨ is_valid_placename r.placename = false then
        { r with placename := c0 }
      else r
  if is_valid_placename record.placename = false then none else some record

/-- Spec-side description of §4.3's emission step *without* re-resolution
(the amended C2): each bucket with non-empty deduplicated joined text is
emitted directly, keeping its originally detected name. -/
def bucketToRecord (e : BKey × List Str) : Option PlaceNameRecord :=
  let t := combinedText e.2
  if t = [] then none else some { placename := e.1.1, text := t, source := e.1.2 }

/-- The pipeline the spec and claim C2 describe: after aggregation, run
re-resolution on every bucket's record and emit only what it returns. -/
def specPipelineWithResolve (docs : List (Str × List Str)) : List PlaceNameRecord :=
  (aggregateFiles docs).filterMap (fun e => (bucketToRecord e).bind validate_and_resolve)

/-- The pipeline as the code actually behaves (amended C2): buckets are
emitted directly, with no re-resolution. -/
def specPipelineNoResolve (docs : List (Str × List Str)) : List PlaceNameRecord :=
  (aggregateFiles docs).filterMap bucketToRecord

/-- Name choice of claim C4's wording of §4.4: keep the original name when
the validated candidate set is empty, or when the original is in that set
and itself valid; otherwise take the left-most validated candidate (the
head of the left-to-right filtered scan). -/
def newNameOf (name : Str) (valids : List Str) : Str :=
  if valids = [] then name
  else if name ∈ valids ∧ is_valid_placename name = true then name
  else valids.headD name

/-- Claim C4's wording of `validate_and_resolve` (§4.4): collect all
pattern matches from the text, filter through the validator, replace the
name by the left-most validated candidate when the filtered set is
non-empty and the original is absent from it or invalid, then discard the
record when the final name is invalid. -/
def resolveSpec (r : PlaceNameRecord) : Option PlaceNameRecord :=
  let valids := (findall r.text).filter is_valid_placename
  let n := newNameOf r.placename valids
  if is_valid_placename n = true then
    some { placename := n, text := r.text, source := r.source }
  else none

/-! ## Structural lemmas about the normalizer -/

lemma lstripSeps_suffix (l : Str) : lstripSeps l <:+ l := List.dropWhile_suffix isSepChar

lemma stripTokStep_suffix (cur tok : Str) :
    (if tok.isPrefixOf cur then lstripSeps (cur.drop tok.length) else cur) <:+ cur := by
  split
  · exact (lstripSeps_suffix _).trans (List.drop_suffix _ _)
  · exact List.suffix_refl _

lemma foldl_suffix {f : Str → Str → Str} (h : ∀ cur tok, f cur tok <:+ cur) :
    ∀ (toks : List Str) (l : Str), List.foldl f l toks <:+ l := by
  intro toks
  induction toks with
  | nil => intro l; exact List.suffix_refl l
  | cons t ts ih => intro l; exact (ih (f l t)).trans (h l t)

lemma stripPrefixTokens_suffix (toks : List Str) (l : Str) : stripPrefixTokens toks l <:+ l :=
  foldl_suffix stripTokStep_suffix toks l

lemma stripAdminAt_suffix (admin l : Str) : stripAdminAt admin l <:+ l := by
  cases l with
  | nil => exact List.suffix_refl _
  | cons a t =>
    cases t with
    | nil => exact List.suffix_refl _
    | cons b rest =>
      simp only [stripAdminAt]
      split
      · exact ((lstripSeps_suffix _).trans (List.drop_suffix _ _)).trans
          ((List.suffix_cons b rest).trans (List.suffix_cons a (b :: rest)))
      · split
        · exact ((lstripSeps_suffix _).trans (List.drop_suffix _ _)).trans
            (List.suffix_cons a (b :: rest))
        · exact List.suffix_refl _

lemma stripAdminTokens_suffix (l : Str) : stripAdminTokens l <:+ l :=
  foldl_suffix (fun cur adm => stripAdminAt_suffix adm cur) ADMIN_LEVELS l

lemma cleanRound_suffix (l : Str) : cleanRound l <:+ l :=
  ((stripPrefixTokens_suffix _ _).trans (stripAdminTokens_suffix _)).trans
    (stripPrefixTokens_suffix _ _)

lemma cleanIter_suffix : ∀ (n : Nat) (l : Str), cleanIter n l <:+ l := by
  intro n
  induction n with
  | zero => intro l; exact List.suffix_refl l
  | succ m ih =>
    intro l
    simp only [cleanIter]
    split
    · exact List.suffix_refl l
    · exact (ih (cleanRound l)).trans (cleanRound_suffix l)

lemma clean_line_start_suffix (l : Str) : clean_line_start l <:+ stripLineNumber l :=
  cleanIter_suffix 10 (stripLineNumber l)

lemma rstripWs_isPrefix (l : Str) : rstripWs l <+: l := by
  have h := List.reverse_prefix.mpr (List.dropWhile_suffix (l := l.reverse) Char.isWhitespace)
  rwa [List.reverse_reverse] at h

lemma stripWsBoth_isInfix (l : Str) : stripWsBoth l <:+: l :=
  List.infix_iff_prefix_suffix.mpr
    ⟨lstripWs l, rstripWs_isPrefix (lstripWs l), List.dropWhile_suffix Char.isWhitespace⟩

lemma stripLineNumber_isInfix (l : Str) : stripLineNumber l <:+: l := by
  cases l with
  | nil => exact stripWsBoth_isInfix []
  | cons c t =>
    simp only [stripLineNumber]
    split
    · exact (stripWsBoth_isInfix _).trans
        (((List.dropWhile_suffix Char.isWhitespace).trans
          (List.dropWhile_suffix Char.isDigit)).isInfix)
    · exact stripWsBoth_isInfix (c :: t)

/-! ## Structural lemmas about `findSub` (Python `str.find`) -/

lemma findSub_prefix_drop (sub : Str) :
    ∀ (l : Str) (i : Nat), findSub sub l = some i → sub <+: l.drop i := by
  intro l
  induction l with
  | nil =>
    intro i h
    simp only [findSub] at h
    split at h
    · cases h
      exact List.isPrefixOf_iff_prefix.mp (by assumption)
    · cases h
  | cons c t ih =>
    intro i h
    simp only [findSub] at h
    split at h
    · cases h
      exact List.isPrefixOf_iff_prefix.mp (by assumption)
    · rw [Option.map_eq_some'] at h
      obtain ⟨j, hj, rfl⟩ := h
      simpa using ih j hj

lemma findSub_isSome_of_infix (sub : Str) :
    ∀ (l : Str), sub <:+: l → (findSub sub l).isSome = true := by
  intro l
  induction l with
  | nil =>
    intro h
    rw [List.infix_nil] at h
    subst h
    simp [findSub, List.isPrefixOf]
  | cons c t ih =>
    intro h
    simp only [findSub]
    split
    · rfl
    · rcases List.infix_cons_iff.mp h with hp | hi
      · exact absurd (List.isPrefixOf_iff_prefix.mpr hp) (by assumption)
      · simpa using ih hi

/-! ## The accepted-candidate facts of `extract_valid_placename` -/

lemma findSuffixCandidate_props :
    ∀ (sufs : List Str) (cl p : Str), findSuffixCandidate sufs cl = some p →
      ∃ suffix ∈ sufs, ∃ idx, findSub suffix cl = some idx ∧
        p = cl.take (idx + 1) ∧ lenOk p = true ∧ noStopStart p = true ∧
        afterOk (cl.drop (idx + 1)) = true := by
  intro sufs
  induction sufs with
  | nil => intro cl p h; cases h
  | cons s rest ih =>
    intro cl p h
    simp only [findSuffixCandidate] at h
    split at h
    · obtain ⟨suf, hmem, hrest⟩ := ih cl p h
      exact ⟨suf, List.mem_cons_of_mem s hmem, hrest⟩
    · rename_i idx hidx
      split at h
      · rename_i hcond
        cases h
        rw [Bool.and_eq_true, Bool.and_eq_true] at hcond
        exact ⟨s, List.mem_cons_self s rest, idx, hidx, rfl,
          hcond.1.1, hcond.1.2, hcond.2⟩
      · obtain ⟨suf, hmem, hrest⟩ := ih cl p h
        exact ⟨suf, List.mem_cons_of_mem s hmem, hrest⟩

lemma extract_valid_props {l p : Str} (h : extract_valid_placename l = some p) :
    ∃ suffix ∈ PLACE_SUFFIXES, ∃ idx, findSub suffix (clean_line_start l) = some idx ∧
      p = (clean_line_start l).take (idx + 1) ∧ lenOk p = true ∧ noStopStart p = true ∧
      afterOk ((clean_line_start l).drop (idx + 1)) = true := by
  simp only [extract_valid_placename] at h
  split at h
  · cases h
  · exact findSuffixCandidate_props PLACE_SUFFIXES (clean_line_start l) p h

lemma findSub_lt_of_ne_nil {sub l : Str} {i : Nat} (hsub : sub ≠ [])
    (h : findSub sub l = some i) : i < l.length := by
  have hp := findSub_prefix_drop sub l i h
  by_contra hge
  push_neg at hge
  rw [List.drop_eq_nil_of_le hge] at hp
  exact hsub (List.prefix_nil.mp hp)

lemma take_succ_of_drop_cons {l : Str} {i : Nat} {c : Char} {t : Str} (h : l.drop i = c :: t) :
    l.take (i + 1) = l.take i ++ [c] := by
  have h0 : (l.drop i)[0]? = some c := by rw [h]; simp
  rw [List.getElem?_drop] at h0
  rw [List.take_succ]
  norm_num at h0
  rw [h0]
  rfl

lemma place_suffixes_length_one : ∀ s ∈ PLACE_SUFFIXES, s.length = 1 := by decide

/-- Any candidate accepted by `extract_valid_placename` passes
`is_valid_placename`: its length 2–3 is within 2–4, the stop-word check is
the same, and it ends with the suffix token that located it. -/
lemma extract_valid_is_valid {l p : Str} (h : extract_valid_placename l = some p) :
    is_valid_placename p = true := by
  obtain ⟨suffix, hmem, idx, hfind, hp, hlen, hstop, -⟩ := extract_valid_props h
  obtain ⟨c, rfl⟩ := List.length_eq_one.mp (place_suffixes_length_one suffix hmem)
  obtain ⟨t, ht⟩ := findSub_prefix_drop _ _ _ hfind
  have htake := take_succ_of_drop_cons (l := clean_line_start l) (i := idx) (c := c)
    (t := t) ht.symm
  have hsuf : [c] <:+ p := by
    rw [hp, htake]
    exact List.suffix_append _ _
  have hlen2 : 2 ≤ p.length ∧ p.length ≤ 3 := by
    rw [lenOk, Bool.and_eq_true, decide_eq_true_eq, decide_eq_true_eq] at hlen
    exact hlen
  rw [is_valid_placename]
  simp only [Bool.and_eq_true, decide_eq_true_eq]
  refine ⟨⟨⟨hlen2.1, by omega⟩, ?_⟩, ?_⟩
  · rw [noStopStart] at hstop
    exact hstop
  · exact List.any_eq_true.mpr ⟨[c], hmem, List.isSuffixOf_iff_suffix.mpr hsuf⟩

/-- Claim C10: `clean_line_start` only removes characters from the front of
the digit-and-whitespace-stripped line, so its result is a contiguous
suffix of that form; consequently every candidate returned by
`extract_valid_placename` occurs as a substring of the input line, and the
aggregator's `line.find(p_name)` (embedded as `findSub`) always finds an
occurrence — it never returns `-1`. -/
theorem candidate_occurs_in_line (l : Str) :
    clean_line_start l <:+ stripLineNumber l ∧
      ∀ p, extract_valid_placename l = some p → (findSub p l).isSome = true := by
  refine ⟨clean_line_start_suffix l, ?_⟩
  intro p h
  obtain ⟨suffix, hmem, idx, hfind, hp, -, -, -⟩ := extract_valid_props h
  have hpre : p <+: clean_line_start l := by
    rw [hp]
    exact List.take_prefix _ _
  exact findSub_isSome_of_infix p l
    ((hpre.isInfix.trans (clean_line_start_suffix l).isInfix).trans (stripLineNumber_isInfix l))

/-- Witness for `candidate_occurs_in_line` at Scenario A's line. -/
theorem candidate_occurs_in_line_witness :
    (findSub "江陵縣".data "漢置江陵縣屬南郡".data).isSome = true :=
  (candidate_occurs_in_line "漢置江陵縣屬南郡".data).2 "江陵縣".data (by decide)

lemma cleanIter_iterate :
    ∀ (n : Nat) (l : Str), ∃ k, k ≤ n ∧ cleanIter n l = cleanRound^[k] l ∧
      (k < n → cleanRound (cleanRound^[k] l) = cleanRound^[k] l) := by
  intro n
  induction n with
  | zero => intro l; exact ⟨0, Nat.le_refl 0, rfl, by omega⟩
  | succ m ih =>
    intro l
    by_cases hr : cleanRound l = l
    · refine ⟨0, Nat.zero_le _, ?_, fun _ => hr⟩
      simp [cleanIter, hr]
    · obtain ⟨k, hk, hval, hfix⟩ := ih (cleanRound l)
      refine ⟨k + 1, by omega, ?_, ?_⟩
      · simp only [cleanIter, if_neg hr]
        rw [hval, Function.iterate_succ_apply]
      · intro hlt
        rw [Function.iterate_succ_apply]
        exact hfix (by omega)

/-- Claim C9: `clean_line_start` terminates on every input — it is a total
function whose rewrite loop runs at most 10 rounds.  Its result is the
`k`-fold application of one rewrite round to the digit-stripped line for
some `k ≤ 10`; when the loop stopped before the cap the result is a fixed
point of the round, and when the cap was reached the current
partially-normalized line is returned as an ordinary (non-error) result. -/
theorem normalizer_iteration_cap (l : Str) :
    ∃ k, k ≤ 10 ∧ clean_line_start l = cleanRound^[k] (stripLineNumber l) ∧
      (k < 10 → cleanRound (clean_line_start l) = clean_line_start l) := by
  obtain ⟨k, hk, hval, hfix⟩ := cleanIter_iterate 10 (stripLineNumber l)
  refine ⟨k, hk, hval, fun hlt => ?_⟩
  unfold clean_line_start
  rw [hval]
  exact hfix hlt

/-- Claim C7, Scenario A on `"漢置江陵縣屬南郡"`: the dynasty loop strips
`"漢"`, the admin loop changes nothing, the verb loop strips `"置"`,
normalization yields `"江陵縣屬南郡"`, the suffix `"縣"` is found at index
2, and the accepted candidate is `"江陵縣"`. -/
theorem scenario_A_trace :
    stripPrefixTokens DYNASTIES "漢置江陵縣屬南郡".data = "置江陵縣屬南郡".data ∧
    stripAdminTokens "置江陵縣屬南郡".data = "置江陵縣屬南郡".data ∧
    stripPrefixTokens PREFIX_VERBS "置江陵縣屬南郡".data = "江陵縣屬南郡".data ∧
    clean_line_start "漢置江陵縣屬南郡".data = "江陵縣屬南郡".data ∧
    findSub "縣".data "江陵縣屬南郡".data = some 2 ∧
    "江陵縣".data.length = 3 ∧
    extract_valid_placename "漢置江陵縣屬南郡".data = some "江陵縣".data := by decide

/-- Claim C8: every candidate returned by `extract_valid_placename` has
length 2 or 3, starts with no stop word, is the prefix of the normalized
line of its own length, and the text following it in the normalized line,
if non-empty, either starts with a separator (`，`/`。`/`；`/whitespace) or
does not start with a directional token. -/
theorem locator_acceptance_rules (l p : Str) (h : extract_valid_placename l = some p) :
    (2 ≤ p.length ∧ p.length ≤ 3) ∧
      (∀ w ∈ STOP_START_WORDS, ¬ w <+: p) ∧
      p = (clean_line_start l).take p.length ∧
      (∀ c rest, (clean_line_start l).drop p.length = c :: rest →
        (c = '，' ∨ c = '。' ∨ c = '；' ∨ c.isWhitespace = true) ∨
          ∀ d ∈ DIR_WORDS, ¬ d <+: (c :: rest)) := by
  obtain ⟨suffix, hmem, idx, hfind, hp, hlen, hstop, hafter⟩ := extract_valid_props h
  have hlen2 : 2 ≤ p.length ∧ p.length ≤ 3 := by
    rw [lenOk, Bool.and_eq_true, decide_eq_true_eq, decide_eq_true_eq] at hlen
    exact hlen
  have hsubnil : suffix ≠ [] := by
    have h1 := place_suffixes_length_one suffix hmem
    intro hnil
    rw [hnil] at h1
    cases h1
  have hidx : idx < (clean_line_start l).length := findSub_lt_of_ne_nil hsubnil hfind
  have hplen : p.length = idx + 1 := by
    rw [hp, List.length_take]
    omega
  refine ⟨hlen2, ?_, ?_, ?_⟩
  · rw [noStopStart, Bool.not_eq_true', List.any_eq_false] at hstop
    intro w hw hpre
    exact hstop w hw (List.isPrefixOf_iff_prefix.mpr hpre)
  · rw [hplen]
    exact hp
  · intro c rest hdrop
    rw [hplen] at hdrop
    rw [hdrop] at hafter
    simp only [afterOk] at hafter
    split at hafter
    · rename_i hsep
      simp only [Bool.or_eq_true, decide_eq_true_eq] at hsep
      rcases hsep with ((h1 | h1) | h1) | h1
      · exact Or.inl (Or.inl h1)
      · exact Or.inl (Or.inr (Or.inl h1))
      · exact Or.inl (Or.inr (Or.inr (Or.inl h1)))
      · exact Or.inl (Or.inr (Or.inr (Or.inr h1)))
    · right
      rw [Bool.not_eq_true', List.any_eq_false] at hafter
      intro d hd hpre
      exact hafter d hd (List.isPrefixOf_iff_prefix.mpr hpre)

/-- Witness for `locator_acceptance_rules` at Scenario A's line. -/
theorem locator_acceptance_rules_witness :
    2 ≤ "江陵縣".data.length ∧ ¬ "其".data <+: "江陵縣".data :=
  ⟨(locator_acceptance_rules "漢置江陵縣屬南郡".data "江陵縣".data (by decide)).1.1,
    (locator_acceptance_rules "漢置江陵縣屬南郡".data "江陵縣".data (by decide)).2.1
      "其".data (by decide)⟩

/-! ## Re-resolution: refinement against the spec wording, and idempotence -/

lemma resolve_eq_spec (r : PlaceNameRecord) : validate_and_resolve r = resolveSpec r := by
  unfold validate_and_resolve resolveSpec newNameOf
  cases hv : (findall r.text).filter is_valid_placename with
  | nil =>
    cases hval : is_valid_placename r.placename <;> simp [hval]
  | cons c0 cs =>
    dsimp only
    by_cases hc : r.placename ∈ c0 :: cs ∧ is_valid_placename r.placename = true
    · have hnot : ¬(r.placename ∉ c0 :: cs ∨ is_valid_placename r.placename = false) := by
        rintro (hni | hf)
        · exact hni hc.1
        · rw [hc.2] at hf
          cases hf
      rw [if_neg hnot, if_neg (List.cons_ne_nil c0 cs), if_pos hc, hc.2]
      simp
    · have hor : r.placename ∉ c0 :: cs ∨ is_valid_placename r.placename = false := by
        by_cases hm : r.placename ∈ c0 :: cs
        · right
          cases hval : is_valid_placename r.placename
          · rfl
          · exact absurd ⟨hm, hval⟩ hc
        · exact Or.inl hm
      rw [if_pos hor, if_neg (List.cons_ne_nil c0 cs), if_neg hc, List.headD_cons]
      cases hval : is_valid_placename c0 <;> simp [hval]

/-- Claim C4: `validate_and_resolve` behaves exactly as §4.4 describes —
candidates are the pattern matches collected from the text, they are
filtered through `is_valid_placename`, the name is replaced by the
left-most validated candidate iff the filtered set is non-empty and the
original name is absent from it or invalid, and the record is returned iff
the final name is valid. -/
theorem validate_and_resolve_matches_spec (r : PlaceNameRecord) :
    validate_and_resolve r = resolveSpec r :=
  resolve_eq_spec r

lemma newNameOf_cases (name : Str) (valids : List Str)
    (hv : ∀ v ∈ valids, is_valid_placename v = true) :
    (newNameOf name valids = name ∧ valids = []) ∨
      (newNameOf name valids ∈ valids ∧ is_valid_placename (newNameOf name valids) = true) := by
  unfold newNameOf
  by_cases h0 : valids = []
  · left
    simp [h0]
  · right
    rw [if_neg h0]
    by_cases hc : name ∈ valids ∧ is_valid_placename name = true
    · rw [if_pos hc]
      exact hc
    · rw [if_neg hc]
      cases valids with
      | nil => exact absurd rfl h0
      | cons c0 cs =>
        rw [List.headD_cons]
        exact ⟨List.mem_cons_self c0 cs, hv c0 (List.mem_cons_self c0 cs)⟩

lemma newNameOf_idem (name : Str) (valids : List Str)
    (hv : ∀ v ∈ valids, is_valid_placename v = true) :
    newNameOf (newNameOf name valids) valids = newNameOf name valids := by
  rcases newNameOf_cases name valids hv with ⟨heq, h0⟩ | ⟨hmem, hval⟩
  · rw [heq]
    exact heq
  · unfold newNameOf
    by_cases h0 : valids = []
    · rw [h0] at hmem
      cases hmem
    · rw [if_neg h0, if_pos ⟨hmem, hval⟩]

/-- Claim C6: re-resolution is idempotent — when `validate_and_resolve r`
returns a record `r2`, applying `validate_and_resolve` to `r2` returns
`r2` unchanged. -/
theorem validate_and_resolve_idempotent (r r2 : PlaceNameRecord)
    (h : validate_and_resolve r = some r2) : validate_and_resolve r2 = some r2 := by
  rw [resolve_eq_spec] at h
  rw [resolve_eq_spec]
  simp only [resolveSpec] at h
  split at h
  · rename_i hval
    injection h with h2
    subst h2
    simp only [resolveSpec]
    rw [newNameOf_idem r.placename ((findall r.text).filter is_valid_placename)
      (fun v hvmem => (List.mem_filter.mp hvmem).2)]
    rw [if_pos hval]
  · cases h

/-- Witness for `validate_and_resolve_idempotent`: the record
`("江陵縣", "武昌郡", "1")` resolves to `("武昌郡", "武昌郡", "1")`, which
re-resolves to itself. -/
theorem validate_and_resolve_idempotent_witness :
    validate_and_resolve
        { placename := "武昌郡".data, text := "武昌郡".data, source := "1".data } =
      some { placename := "武昌郡".data, text := "武昌郡".data, source := "1".data } :=
  validate_and_resolve_idempotent
    { placename := "江陵縣".data, text := "武昌郡".data, source := "1".data }
    { placename := "武昌郡".data, text := "武昌郡".data, source := "1".data }
    (by decide)

/-! ## Bucket-structure lemmas for the aggregation dictionary -/

lemma appendTo_keys (bs : Buckets) (k : BKey) (v : Str) :
    (appendTo bs k v).map Prod.fst = bs.map Prod.fst := by
  induction bs with
  | nil => rfl
  | cons e rest ih =>
    obtain ⟨k2, vs⟩ := e
    simp only [appendTo]
    split
    · simp
    · simp [ih]

lemma mem_appendTo {bs : Buckets} {k : BKey} {v : Str} {e : BKey × List Str}
    (h : e ∈ appendTo bs k v) :
    ∃ e2 ∈ bs, e.1 = e2.1 ∧ (e.2 = e2.2 ∨ e.2 = e2.2 ++ [v]) := by
  induction bs with
  | nil => cases h
  | cons e0 rest ih =>
    obtain ⟨k2, vs⟩ := e0
    simp only [appendTo] at h
    split at h
    · rcases List.mem_cons.mp h with rfl | hmem
      · exact ⟨(k2, vs), List.mem_cons_self _ _, rfl, Or.inr rfl⟩
      · exact ⟨e, List.mem_cons_of_mem _ hmem, rfl, Or.inl rfl⟩
    · rcases List.mem_cons.mp h with rfl | hmem
      · exact ⟨(k2, vs), List.mem_cons_self _ _, rfl, Or.inl rfl⟩
      · obtain ⟨e2, hm, he⟩ := ih hmem
        exact ⟨e2, List.mem_cons_of_mem _ hm, he⟩

lemma mem_ensureKey {bs : Buckets} {k : BKey} {e : BKey × List Str}
    (h : e ∈ ensureKey bs k) : e ∈ bs ∨ e = (k, []) := by
  unfold ensureKey at h
  split at h
  · exact Or.inl h
  · rcases List.mem_append.mp h with hm | hm
    · exact Or.inl hm
    · right
      simpa using hm

lemma appendTo_forall {Q : Str → Prop} {bs : Buckets} {k : BKey} {v : Str}
    (hbs : ∀ e ∈ bs, ∀ t ∈ e.2, Q t) (hv : Q v) :
    ∀ e ∈ appendTo bs k v, ∀ t ∈ e.2, Q t := by
  intro e he t ht
  obtain ⟨e2, hm2, -, hsnd⟩ := mem_appendTo he
  rcases hsnd with hold | hnew
  · exact hbs e2 hm2 t (hold ▸ ht)
  · rw [hnew] at ht
    rcases List.mem_append.mp ht with hm3 | hm3
    · exact hbs e2 hm2 t hm3
    · have heq : t = v := by simpa using hm3
      exact heq ▸ hv

lemma appendTo_forall_keys {Q : BKey → Prop} {bs : Buckets} {k : BKey} {v : Str}
    (hbs : ∀ e ∈ bs, Q e.1) : ∀ e ∈ appendTo bs k v, Q e.1 := by
  intro e he
  obtain ⟨e2, hm2, hfst, -⟩ := mem_appendTo he
  rw [hfst]
  exact hbs e2 hm2

lemma hasKey_false_not_mem {bs : Buckets} {k : BKey} (h : hasKey bs k = false) :
    k ∉ bs.map Prod.fst := by
  intro hm
  obtain ⟨e, hme, hfe⟩ := List.mem_map.mp hm
  have h2 : hasKey bs k = true := by
    unfold hasKey
    exact List.any_eq_true.mpr ⟨e, hme, by simp [hfe]⟩
  rw [h] at h2
  cases h2

lemma ensureKey_keys_nodup {bs : Buckets} {k : BKey}
    (h : (bs.map Prod.fst).Nodup) : ((ensureKey bs k).map Prod.fst).Nodup := by
  unfold ensureKey
  split
  · exact h
  · rename_i hnk
    rw [List.map_append, List.nodup_append]
    simp only [List.map_cons, List.map_nil]
    refine ⟨h, List.nodup_cons.mpr ⟨List.not_mem_nil k, List.nodup_nil⟩, ?_⟩
    intro a ha hak
    have hk : a = k := by simpa using hak
    subst hk
    exact hasKey_false_not_mem (Bool.eq_false_iff.mpr hnk) ha

/-! ## Head-character lemmas for stored contributions -/

lemma head_dropWhile_not {p : Char → Bool} {c : Char} {t : Str} :
    ∀ {l : Str}, l.dropWhile p = c :: t → p c = false := by
  intro l
  induction l with
  | nil => intro h; cases h
  | cons a l2 ih =>
    intro h
    rw [List.dropWhile_cons] at h
    split at h
    · exact ih h
    · rename_i hpa
      injection h with h1 h2
      subst h1
      exact Bool.eq_false_iff.mpr hpa

lemma head_eq_of_isPrefix {p l : Str} (h : p <+: l) (hne : p ≠ []) : p.head? = l.head? := by
  obtain ⟨t, rfl⟩ := h
  cases p with
  | nil => exact absurd rfl hne
  | cons a q => rfl

lemma stripWsBoth_head_not_ws {l : Str} {c : Char} {t : Str}
    (h : stripWsBoth l = c :: t) : c.isWhitespace = false := by
  unfold stripWsBoth at h
  have hpre : rstripWs (lstripWs l) <+: lstripWs l := rstripWs_isPrefix _
  rw [h] at hpre
  have hh : (lstripWs l).head? = some c :=
    (head_eq_of_isPrefix hpre (List.cons_ne_nil c t)).symm
  cases hd : lstripWs l with
  | nil => rw [hd] at hh; cases hh
  | cons c2 t2 =>
    rw [hd] at hh
    injection hh with hc
    subst hc
    exact head_dropWhile_not (show l.dropWhile Char.isWhitespace = c2 :: t2 from hd)

lemma lstripSeps_head_not_sep {l : Str} {c : Char} {t : Str}
    (h : lstripSeps l = c :: t) : isSepChar c = false :=
  head_dropWhile_not (show l.dropWhile isSepChar = c :: t from h)

/-- A non-empty residual contribution (after `lstrip("，。； ")`) is
non-empty and does not begin with a space. -/
lemma lstripSeps_good {x : Str} (hne : ¬ lstripSeps x = []) :
    lstripSeps x ≠ [] ∧ (lstripSeps x).head? ≠ some ' ' := by
  refine ⟨hne, ?_⟩
  cases hd : lstripSeps x with
  | nil => simp
  | cons c t =>
    have hsep := lstripSeps_head_not_sep hd
    simp only [List.head?_cons]
    intro hce
    injection hce with hce
    subst hce
    have h2 : isSepChar ' ' = true := by decide
    rw [h2] at hsep
    cases hsep

/-- A non-empty continuation line (after `strip()`) is non-empty and does
not begin with a space. -/
lemma stripWsBoth_good {x : Str} (hne : ¬ stripWsBoth x = []) :
    stripWsBoth x ≠ [] ∧ (stripWsBoth x).head? ≠ some ' ' := by
  refine ⟨hne, ?_⟩
  cases hd : stripWsBoth x with
  | nil => simp
  | cons c t =>
    have hws := stripWsBoth_head_not_ws hd
    simp only [List.head?_cons]
    intro hce
    injection hce with hce
    subst hce
    have h2 : Char.isWhitespace ' ' = true := by decide
    rw [h2] at hws
    cases hws

/-! ## Preservation of bucket invariants through the aggregation pass -/

lemma foldl_lines_preserve {P : Buckets → Prop}
    (hstep : ∀ (f : Str) (st : AggState) (line : Str),
      P st.buckets → P (processLine f st line).buckets) :
    ∀ (f : Str) (lines : List Str) (st : AggState), P st.buckets →
      P ((lines.foldl (processLine f) st).buckets) := by
  intro f lines
  induction lines with
  | nil => intro st h; exact h
  | cons line rest ih => intro st h; exact ih _ (hstep f st line h)

lemma aggregateFiles_preserve {P : Buckets → Prop}
    (hstep : ∀ (f : Str) (st : AggState) (line : Str),
      P st.buckets → P (processLine f st line).buckets)
    (hnil : P []) (docs : List (Str × List Str)) : P (aggregateFiles docs) := by
  unfold aggregateFiles
  suffices hgen : ∀ (ds : List (Str × List Str)) (bs : Buckets), P bs →
      P (ds.foldl processFile bs) from hgen docs [] hnil
  intro ds
  induction ds with
  | nil => intro bs h; exact h
  | cons d rest ih =>
    intro bs h
    apply ih
    unfold processFile
    exact foldl_lines_preserve hstep d.1 d.2 { buckets := bs, lastPlace := none } h

lemma processLine_validKeys (f : Str) (st : AggState) (rawLine : Str)
    (h : ∀ e ∈ st.buckets, is_valid_placename e.1.1 = true) :
    ∀ e ∈ (processLine f st rawLine).buckets, is_valid_placename e.1.1 = true := by
  unfold processLine
  dsimp only
  split
  · exact h
  · cases hx : extract_valid_placename (stripWsBoth rawLine) with
    | some p =>
      intro e he
      dsimp only at he
      have hens : ∀ e2 ∈ ensureKey st.buckets (p, f), is_valid_placename e2.1.1 = true := by
        intro e2 he2
        rcases mem_ensureKey he2 with hm | rfl
        · exact h e2 hm
        · exact extract_valid_is_valid hx
      split at he
      · exact hens e he
      · exact appendTo_forall_keys (Q := fun k => is_valid_placename k.1 = true) hens e he
    | none =>
      cases st.lastPlace with
      | some lp =>
        intro e he
        dsimp only at he
        exact appendTo_forall_keys (Q := fun k => is_valid_placename k.1 = true) h e he
      | none => exact h

lemma processLine_goodTexts (f : Str) (st : AggState) (rawLine : Str)
    (h : ∀ e ∈ st.buckets, ∀ t ∈ e.2, t ≠ [] ∧ t.head? ≠ some ' ') :
    ∀ e ∈ (processLine f st rawLine).buckets, ∀ t ∈ e.2, t ≠ [] ∧ t.head? ≠ some ' ' := by
  unfold processLine
  dsimp only
  split
  · exact h
  · rename_i hline
    cases hx : extract_valid_placename (stripWsBoth rawLine) with
    | some p =>
      intro e he
      dsimp only at he
      have hens : ∀ e2 ∈ ensureKey st.buckets (p, f), ∀ t ∈ e2.2,
          t ≠ [] ∧ t.head? ≠ some ' ' := by
        intro e2 he2 t ht
        rcases mem_ensureKey he2 with hm | rfl
        · exact h e2 hm t ht
        · cases ht
      split at he
      · exact hens e he
      · rename_i hct
        exact appendTo_forall hens (lstripSeps_good hct) e he
    | none =>
      cases st.lastPlace with
      | some lp =>
        intro e he
        dsimp only at he
        exact appendTo_forall h (stripWsBoth_good hline) e he
      | none => exact h

lemma processLine_nodupKeys (f : Str) (st : AggState) (rawLine : Str)
    (h : (st.buckets.map Prod.fst).Nodup) :
    (((processLine f st rawLine).buckets).map Prod.fst).Nodup := by
  unfold processLine
  dsimp only
  split
  · exact h
  · cases hx : extract_valid_placename (stripWsBoth rawLine) with
    | some p =>
      dsimp only
      split
      · exact ensureKey_keys_nodup h
      · rw [appendTo_keys]
        exact ensureKey_keys_nodup h
    | none =>
      cases st.lastPlace with
      | some lp =>
        dsimp only
        rw [appendTo_keys]
        exact h
      | none => exact h

/-! ## The record-conversion loop as a filterMap, and the claim theorems -/

lemma recordsOfBuckets_eq (bs : Buckets) : recordsOfBuckets bs = bs.filterMap bucketToRecord := by
  unfold recordsOfBuckets
  suffices hgen : ∀ (l : Buckets) (acc : List PlaceNameRecord),
      l.foldl
          (fun recs e =>
            let t := combinedText e.2
            if t = [] then recs
            else recs ++ [{ placename := e.1.1, text := t, source := e.1.2 }])
          acc
        = acc ++ l.filterMap bucketToRecord by
    simpa using hgen bs []
  intro l
  induction l with
  | nil => intro acc; simp
  | cons e rest ih =>
    intro acc
    rw [List.foldl_cons, ih]
    dsimp only
    by_cases ht : combinedText e.2 = []
    · rw [if_pos ht]
      have hb : bucketToRecord e = none := by
        unfold bucketToRecord
        dsimp only
        rw [if_pos ht]
      rw [List.filterMap_cons_none hb]
    · rw [if_neg ht]
      have hb : bucketToRecord e =
          some { placename := e.1.1, text := combinedText e.2, source := e.1.2 } := by
        unfold bucketToRecord
        dsimp only
        rw [if_neg ht]
      rw [List.filterMap_cons_some hb]
      simp

lemma dedupKeepFirst_nodup (xs : List Str) : (dedupKeepFirst xs).Nodup := by
  unfold dedupKeepFirst
  suffices hgen : ∀ (l : List Str) (acc : List Str), acc.Nodup →
      (l.foldl (fun acc x => if x ∈ acc then acc else acc ++ [x]) acc).Nodup from
    hgen xs [] List.nodup_nil
  intro l
  induction l with
  | nil => intro acc h; exact h
  | cons x rest ih =>
    intro acc h
    rw [List.foldl_cons]
    apply ih
    dsimp only
    split
    · exact h
    · rename_i hx
      rw [List.nodup_append]
      exact ⟨h, List.nodup_cons.mpr ⟨List.not_mem_nil x, List.nodup_nil⟩,
        fun a ha hax => hx ((List.mem_singleton.mp hax) ▸ ha)⟩

lemma map_key_filterMap_sublist (bs : Buckets) :
    ((bs.filterMap bucketToRecord).map (fun r => (r.placename, r.source))).Sublist
      (bs.map Prod.fst) := by
  induction bs with
  | nil => simp
  | cons e rest ih =>
    cases hb : bucketToRecord e with
    | none =>
      rw [List.filterMap_cons_none hb, List.map_cons]
      exact ih.cons e.1
    | some r =>
      rw [List.filterMap_cons_some hb, List.map_cons, List.map_cons]
      have hk : (r.placename, r.source) = e.1 := by
        unfold bucketToRecord at hb
        dsimp only at hb
        split at hb
        · cases hb
        · injection hb with hb
          rw [← hb]
      rw [hk]
      exact ih.cons₂ e.1

/-- Claim C1: every record emitted by `extract_from_directory` satisfies
the standalone validator on its name, and in particular no record is
emitted with an empty placename. -/
theorem extract_records_always_valid (docs : List (Str × List Str))
    (r : PlaceNameRecord) (h : r ∈ extract_from_directory docs) :
    is_valid_placename r.placename = true ∧ r.placename ≠ [] := by
  have hkeys := aggregateFiles_preserve
    (P := fun bs => ∀ e ∈ bs, is_valid_placename e.1.1 = true)
    processLine_validKeys (fun e he => absurd he (List.not_mem_nil e)) docs
  unfold extract_from_directory at h
  rw [recordsOfBuckets_eq] at h
  obtain ⟨e, hme, hre⟩ := List.mem_filterMap.mp h
  unfold bucketToRecord at hre
  dsimp only at hre
  split at hre
  · cases hre
  · injection hre with hre
    subst hre
    dsimp only
    have hv := hkeys e hme
    refine ⟨hv, ?_⟩
    intro hnil
    rw [hnil] at hv
    rw [show is_valid_placename ([] : Str) = false from by decide] at hv
    cases hv

/-- Witness for `extract_records_always_valid` on a one-line document. -/
theorem extract_records_always_valid_witness :
    is_valid_placename "江陵縣".data = true ∧ "江陵縣".data ≠ [] :=
  extract_records_always_valid [("1.txt".data, ["江陵縣武昌郡".data])]
    { placename := "江陵縣".data, text := "武昌郡".data, source := "1.txt".data } (by decide)

/-- Amended claim C2: the pipeline emits, for every bucket whose
deduplicated joined text is non-empty, a record carrying the originally
detected placename directly — `validate_and_resolve` is never applied
(`extract_from_directory` does not call it, and `main` only calls
`extract_from_directory` and `save_to_csv`). -/
theorem pipeline_emits_buckets_without_resolve (docs : List (Str × List Str)) :
    extract_from_directory docs = specPipelineNoResolve docs := by
  unfold extract_from_directory specPipelineNoResolve
  exact recordsOfBuckets_eq (aggregateFiles docs)

/-- Counterexample to claim C2 as stated: on the single document
`"1.txt"` containing the line `"江陵縣武昌郡"`, the pipeline emits
`("江陵縣", "武昌郡", "1.txt")`, whereas filtering and renaming the
aggregated buckets through `validate_and_resolve` would emit
`("武昌郡", "武昌郡", "1.txt")`. -/
theorem pipeline_differs_from_resolved_emission :
    extract_from_directory [("1.txt".data, ["江陵縣武昌郡".data])] ≠
      specPipelineWithResolve [("1.txt".data, ["江陵縣武昌郡".data])] := by decide

/-- Amended claim C3: every line contribution stored into a bucket is
non-empty and does not begin with the space character; residual text after
a detected name is additionally left-stripped of `，`/`。`/`；`/space at
storage time, but continuation lines are only whitespace-trimmed and may
begin with `，`, `。` or `；`. -/
theorem stored_contributions_nonempty_no_leading_space (docs : List (Str × List Str))
    (e : BKey × List Str) (he : e ∈ aggregateFiles docs) (t : Str) (ht : t ∈ e.2) :
    t ≠ [] ∧ t.head? ≠ some ' ' :=
  aggregateFiles_preserve
    (P := fun bs => ∀ e2 ∈ bs, ∀ t2 ∈ e2.2, t2 ≠ [] ∧ t2.head? ≠ some ' ')
    processLine_goodTexts (fun e2 he2 => absurd he2 (List.not_mem_nil e2)) docs e he t ht

/-- Witness for `stored_contributions_nonempty_no_leading_space`. -/
theorem stored_contributions_witness :
    "武昌".data ≠ [] ∧ ("武昌".data).head? ≠ some ' ' :=
  stored_contributions_nonempty_no_leading_space
    [("1.txt".data, ["江陵縣武昌".data, "，其水南流".data])]
    (("江陵縣".data, "1.txt".data), ["武昌".data, "，其水南流".data])
    (by decide) "武昌".data (by decide)

/-- Counterexample to claim C3 as stated: in the document `"1.txt"` with
lines `"江陵縣武昌"` and `"，其水南流"`, the second line yields no
candidate and is stored as a continuation line that still begins with the
separator `，`. -/
theorem continuation_line_keeps_leading_separator :
    ¬ (∀ e ∈ aggregateFiles [("1.txt".data, ["江陵縣武昌".data, "，其水南流".data])],
        ∀ t ∈ e.2, t.head? ≠ some '，' ∧ t.head? ≠ some '。' ∧ t.head? ≠ some '；' ∧
          t.head? ≠ some ' ') := by decide

/-- Claim C5: `(placename, source)` is the uniqueness key of aggregation —
the emitted records have pairwise-distinct `(placename, source)` pairs,
and each record's text is the space-join of its bucket's contributions
with duplicate line values collapsed once (the deduplicated list has no
duplicates, insertion order preserved by `dedupKeepFirst`). -/
theorem record_key_unique_and_text_deduped (docs : List (Str × List Str)) :
    ((extract_from_directory docs).map (fun r => (r.placename, r.source))).Nodup ∧
      ∀ r ∈ extract_from_directory docs, ∃ e ∈ aggregateFiles docs,
        e.1 = (r.placename, r.source) ∧ r.text = combinedText e.2 ∧
          (dedupKeepFirst e.2).Nodup := by
  have hnodup := aggregateFiles_preserve (P := fun bs => (bs.map Prod.fst).Nodup)
    processLine_nodupKeys List.nodup_nil docs
  constructor
  · unfold extract_from_directory
    rw [recordsOfBuckets_eq]
    exact List.Nodup.sublist (map_key_filterMap_sublist (aggregateFiles docs)) hnodup
  · intro r hr
    unfold extract_from_directory at hr
    rw [recordsOfBuckets_eq] at hr
    obtain ⟨e, hme, hre⟩ := List.mem_filterMap.mp hr
    refine ⟨e, hme, ?_⟩
    unfold bucketToRecord at hre
    dsimp only at hre
    split at hre
    · cases hre
    · injection hre with hre
      subst hre
      exact ⟨Prod.mk.eta, rfl, dedupKeepFirst_nodup e.2⟩

/-- Witness for `record_key_unique_and_text_deduped` on a one-line document. -/
theorem record_key_unique_witness :
    ∃ e ∈ aggregateFiles [("1.txt".data, ["江陵縣武昌郡".data])],
      e.1 = ("江陵縣".data, "1.txt".data) ∧ "武昌郡".data = combinedText e.2 ∧
        (dedupKeepFirst e.2).Nodup :=
  (record_key_unique_and_text_deduped [("1.txt".data, ["江陵縣武昌郡".data])]).2
    { placename := "江陵縣".data, text := "武昌郡".data, source := "1.txt".data } (by decide)
